import Mathlib

/-!
Verification development for the structured-value and attribute-storage core
of the `log` package (files `log/value.go`, `log/keyvalue.go`) and the
attribute container of the `logtest` record type.

`log/value.go` in this repository holds two related versions of the `Value`
type: the first (lines 1-308) has an `Uint64` kind but no `Bytes`/`List`
kinds, the second (lines 309-713) has `Bytes`/`List` but no `Uint64`.  The
package's test file exercises `Uint64Value`, `BytesValue` and `ListValue`
together, and the spec describes the union of kinds, so the embedding below
models the union: each operation follows the second version, with the
`Uint64` cases taken verbatim from the first version (`Uint64Value` line
102, `Value.Uint64` lines 199-204, the `KindUint64` arm of `Value.Equal`
line 261, and the `KindUint64` arm of `Value.append` line 296).

Machine integers are modelled as `Nat` bit patterns with explicit `% 2^w`;
`float64` values are represented by their IEEE-754 bit patterns (this is
also how the source stores them: `Float64Value` stores `math.Float64bits`).
Panics of the typed accessors are modelled with `Option` (`none` = panic).
-/

namespace OTelLog

/-! ### IEEE-754 binary64 bit-pattern model

The source compares floats with Go `==` on `math.Float64frombits(v.num)`.
We model `Float64frombits` equality directly on the bit patterns: two
patterns are `==`-equal iff neither is a NaN encoding and they are either
identical or are the two zero encodings (+0 and -0). -/

/-- Sign bit of a float64 bit pattern. -/
def f64Sign (bits : Nat) : Bool := bits / 2 ^ 63 % 2 == 1

/-- Biased exponent field (11 bits) of a float64 bit pattern. -/
def f64Exp (bits : Nat) : Nat := bits / 2 ^ 52 % 2 ^ 11

/-- Mantissa field (52 bits) of a float64 bit pattern. -/
def f64Mant (bits : Nat) : Nat := bits % 2 ^ 52

/-- Whether a float64 bit pattern encodes a NaN. -/
def f64IsNaN (bits : Nat) : Bool := f64Exp bits == 2047 && f64Mant bits != 0

/-- Whether a float64 bit pattern encodes +0 or -0. -/
def f64IsZero (bits : Nat) : Bool := bits % 2 ^ 63 == 0

/-- Go `==` on `math.Float64frombits x == math.Float64frombits y` (IEEE-754
numeric equality), expressed on the bit patterns: false whenever either
operand is NaN; otherwise true iff the patterns are identical or both are
zero encodings. -/
def f64Eq (x y : Nat) : Bool :=
  if f64IsNaN x || f64IsNaN y then false
  else (x == y) || (f64IsZero x && f64IsZero y)

/-! ### Kind, Value, KeyValue -/

/-- Kind is the kind of a Value (union of the kind sets of the two versions
of `value.go`). -/
inductive Kind where
  | Empty
  | Bool
  | Float64
  | Int64
  | String
  | Uint64
  | Bytes
  | List
  | Group
  deriving DecidableEq

/-! Type aliases: inside a declaration named `Value.X`, `KeyValue.X` or
`Log.X` the namespaces `Value`/`KeyValue`/`Log` are opened, so the builtin
names `Bool`, `String`, `Int`, `List` would resolve to the accessor and
constructor functions defined below.  These aliases keep the builtin types
reachable there. -/

abbrev BoolT := Bool

abbrev StrT := String

abbrev IntT := Int

mutual
/-- A Value can represent a structured value; the payload of each kind is
the content of the source's `num`/backing storage for that kind: `bool`
stores `num == 1`, `int64`/`uint64`/`float64` store the 64-bit `num`
pattern, the composite kinds store their backing sequence. The zero Value
is `empty`. -/
inductive Value where
  | empty
  | bool (b : Bool)
  | int64 (num : Nat)
  | uint64 (num : Nat)
  | float64 (num : Nat)
  | str (s : String)
  | bytes (bs : List Nat)
  | list (vs : List Value)
  | group (kvs : List KeyValue)
/-- A KeyValue is a key-value pair. -/
inductive KeyValue where
  | mk (Key : String) (Value : Value)
end

/-- Sequence of Value (backing storage of a List-kind Value). -/
abbrev ValueSeq := List Value

/-- Sequence of KeyValue (backing storage of a Group-kind Value). -/
abbrev KeyValueSeq := List KeyValue

/-- Key field of a KeyValue. -/
def KeyValue.Key : KeyValue → StrT
  | .mk k _ => k

/-- Value field of a KeyValue. -/
def KeyValue.Value : KeyValue → Value
  | .mk _ v => v

/-- Kind returns v's Kind (`value.go` lines 381-396 plus the `stringptr`
dispatch; each payload constructor determines the kind). -/
def Value.Kind : Value → Kind
  | .empty => .Empty
  | .bool _ => .Bool
  | .int64 _ => .Int64
  | .uint64 _ => .Uint64
  | .float64 _ => .Float64
  | .str _ => .String
  | .bytes _ => .Bytes
  | .list _ => .List
  | .group _ => .Group

/-! ### Constructors -/

/-- StringValue returns a new Value for a string. -/
def StringValue (value : String) : Value := .str value

/-- Int64Value returns a Value for an int64; the source stores
`num: uint64(v)`, i.e. the argument reduced modulo 2^64. -/
def Int64Value (v : Int) : Value := .int64 ((v % 2 ^ 64).toNat)

/-- IntValue returns a Value for an int. -/
def IntValue (v : Int) : Value := Int64Value v

/-- Uint64Value returns a Value for a uint64 (first version of `value.go`,
line 102). -/
def Uint64Value (v : Nat) : Value := .uint64 (v % 2 ^ 64)

/-- Float64Value returns a Value for a floating-point number; the source
stores `math.Float64bits(v)`, so the embedding takes the bit pattern. -/
def Float64Value (bits : Nat) : Value := .float64 (bits % 2 ^ 64)

/-- BoolValue returns a Value for a bool (`num` is 1 for true, 0 for
false; the payload records `num == 1`). -/
def BoolValue (v : Bool) : Value := .bool v

/-- BytesValue returns a Value for bytes. -/
def BytesValue (v : List Nat) : Value := .bytes v

/-- ListValue returns a Value for a list of Value. -/
def ListValue (vs : List Value) : Value := .list vs

/-- isEmptyGroup reports whether v is a group that has no attributes
(`value.go` lines 615-623). -/
def Value.isEmptyGroup : Value → BoolT
  | .group kvs => kvs.isEmpty
  | _ => false

/-- countEmptyGroups returns the number of empty group values in its
argument (`value.go` lines 458-466). -/
def countEmptyGroups : List KeyValue → Nat
  | [] => 0
  | a :: as => (if a.Value.isEmptyGroup then 1 else 0) + countEmptyGroups as

/-- GroupValue returns a new Value for a list of key-value pairs, removing
members whose value is an empty group (`value.go` lines 441-455): if no
member is an empty group the argument sequence is kept as given, otherwise
a new sequence of only the non-empty-group members is built, preserving
order. -/
def GroupValue (kvs : List KeyValue) : Value :=
  if countEmptyGroups kvs > 0 then
    .group (kvs.filter fun a => !a.Value.isEmptyGroup)
  else
    .group kvs

/-! ### Typed accessors; a Go panic is modelled as `none`. -/

/-- Int64 returns v's value as an int64; it panics (`none`) if v is not a
signed integer. The source returns `int64(v.num)`, the two's-complement
reading of the stored pattern. -/
def Value.Int64 : Value → Option Int
  | .int64 num => some (if num < 2 ^ 63 then (num : Int) else (num : Int) - 2 ^ 64)
  | _ => none

/-- Uint64 returns v's value as a uint64; it panics (`none`) if v is not an
unsigned integer (first version of `value.go`, lines 199-204). -/
def Value.Uint64 : Value → Option Nat
  | .uint64 num => some num
  | _ => none

/-- Bool returns v's value as a bool; it panics (`none`) if v is not a
bool. -/
def Value.Bool : Value → Option BoolT
  | .bool b => some b
  | _ => none

/-- Float64 returns v's value as a float64 (represented by its bit
pattern); it panics (`none`) if v is not a float64. -/
def Value.Float64 : Value → Option Nat
  | .float64 num => some num
  | _ => none

/-- Bytes returns v's value as a byte slice; it panics (`none`) if v's Kind
is not Bytes. -/
def Value.Bytes : Value → Option (List Nat)
  | .bytes bs => some bs
  | _ => none

/-- List returns v's value as a list of Value; it panics (`none`) if v's
Kind is not List. -/
def Value.List : Value → Option ValueSeq
  | .list vs => some vs
  | _ => none

/-- Group returns v's value as a list of KeyValue; it panics (`none`) if
v's Kind is not Group. -/
def Value.Group : Value → Option KeyValueSeq
  | .group kvs => some kvs
  | _ => none

/-- Empty reports whether the value is empty (corresponds to nil). -/
def Value.Empty (v : Value) : BoolT := v.Kind == .Empty

/-! ### Structural equality (`value.go` lines 588-612 together with the
`KindUint64` arm from line 261 of the first version).  Values of different
kinds (different payload constructors) fall into the final catch-all and
are never equal, matching the source's `k1 != k2` guard.  The list/group
cases are `slices.EqualFunc`: equal length and pairwise `Equal`. -/

mutual
/-- Equal reports whether v and w represent the same Go value.  The
Float64 case is the source's `v.float() == w.float()`: IEEE-754 numeric
equality of the decoded floats, here `f64Eq` on the stored patterns. -/
def Value.Equal : Value → Value → BoolT
  | .int64 n1, .int64 n2 => n1 == n2
  | .uint64 n1, .uint64 n2 => n1 == n2
  | .bool b1, .bool b2 => b1 == b2
  | .str s1, .str s2 => s1 == s2
  | .float64 n1, .float64 n2 => f64Eq n1 n2
  | .list vs, .list ws => valuesEqual vs ws
  | .group gs, .group hs => keyValuesEqual gs hs
  | .bytes b1, .bytes b2 => b1 == b2
  | .empty, .empty => true
  | _, _ => false
  termination_by structural v _ => v
/-- Pairwise equality of Value sequences (`slices.EqualFunc` with
`Value.Equal`). -/
def valuesEqual : ValueSeq → ValueSeq → BoolT
  | [], [] => true
  | v :: vs, w :: ws => Value.Equal v w && valuesEqual vs ws
  | _, _ => false
  termination_by structural vs _ => vs
/-- Pairwise equality of KeyValue sequences (`slices.EqualFunc` with
`KeyValue.Equal`). -/
def keyValuesEqual : KeyValueSeq → KeyValueSeq → BoolT
  | [], [] => true
  | a :: as, b :: bs => KeyValue.Equal a b && keyValuesEqual as bs
  | _, _ => false
  termination_by structural as _ => as
/-- Equal reports whether a and b have equal keys and values
(`keyvalue.go` lines 61-63). -/
def KeyValue.Equal : KeyValue → KeyValue → BoolT
  | .mk k1 v1, .mk k2 v2 => k1 == k2 && Value.Equal v1 v2
  termination_by structural a => a
end

/-- Invalid reports whether the key-value has empty key or value
(`keyvalue.go` lines 56-58). -/
def KeyValue.Invalid (a : KeyValue) : BoolT := a.Key == "" || a.Value.Empty

/-! ### KeyValue convenience constructors (`keyvalue.go` / `value.go`
second version lines 656-698).  In Go these are package-level functions
named `String`, `Int64`, ...; they live in the `Log` namespace here so the
builtin type names stay unambiguous. -/

/-- String returns a KeyValue for a string value. -/
def Log.String (key value : StrT) : KeyValue := .mk key (StringValue value)

/-- Int64 returns a KeyValue for an int64. -/
def Log.Int64 (key : StrT) (value : IntT) : KeyValue := .mk key (Int64Value value)

/-- Int converts an int to an int64 and returns a KeyValue with that
value. -/
def Log.Int (key : StrT) (value : IntT) : KeyValue := Log.Int64 key value

/-- Uint64 returns a KeyValue for a uint64. -/
def Log.Uint64 (key : StrT) (v : Nat) : KeyValue := .mk key (Uint64Value v)

/-- Float64 returns a KeyValue for a floating-point number (bit
pattern). -/
def Log.Float64 (key : StrT) (bits : Nat) : KeyValue := .mk key (Float64Value bits)

/-- Bool returns a KeyValue for a bool. -/
def Log.Bool (key : StrT) (v : BoolT) : KeyValue := .mk key (BoolValue v)

/-- Bytes returns a KeyValue for bytes. -/
def Log.Bytes (key : StrT) (v : List Nat) : KeyValue := .mk key (BytesValue v)

/-- List returns a KeyValue for a list of Value. -/
def Log.List (key : StrT) (args : ValueSeq) : KeyValue := .mk key (ListValue args)

/-- Group returns a KeyValue for a Group Value. -/
def Log.Group (key : StrT) (args : KeyValueSeq) : KeyValue := .mk key (GroupValue args)

/-! ### Text formatting

`Value.append` formats scalars with `strconv` (`AppendInt`, `AppendUint`,
`AppendFloat(dst, f, 'g', -1, 64)`, `AppendBool`) and composites with
`fmt.Append`.  The float case is Go's shortest round-trip decimal: the
decimal with the fewest significant digits that lies strictly (or weakly,
when the mantissa is even) between the midpoints to the neighbouring
float64 values, rounded to nearest (ties to the even last digit), then laid
out with the `%g` rule: scientific notation iff the decimal exponent is
below -4 or at least 6.  All arithmetic is exact over `Nat` pairs
(numerator, denominator); recursions carry explicit fuel so they reduce by
`rfl`. -/

/-- Decimal digit count of a natural number (fuel-driven; `digitCount fuel
n` is exact whenever `fuel` bounds the digit count). -/
def digitCount : Nat → Nat → Nat
  | 0, _ => 1
  | fuel + 1, n => if n < 10 then 1 else digitCount fuel (n / 10) + 1

/-- Strict comparison of exact rationals given as numerator/denominator
pairs. -/
def ratLt (a b : Nat × Nat) : Bool := decide (a.1 * b.2 < b.1 * a.2)

/-- Equality of exact rationals given as numerator/denominator pairs. -/
def ratEq (a b : Nat × Nat) : Bool := a.1 * b.2 == b.1 * a.2

/-- The rational n * 10^p for an integer exponent p. -/
def mulPow10 (n : Nat) (p : Int) : Nat × Nat :=
  if 0 ≤ p then (n * 10 ^ p.toNat, 1) else (n, 10 ^ (-p).toNat)

/-- The rational m * 2^e for an integer exponent e. -/
def ratOfMantExp (m : Nat) (e : Int) : Nat × Nat :=
  if 0 ≤ e then (m * 2 ^ e.toNat, 1) else (m, 2 ^ (-e).toNat)

/-- Whether 10^k ≤ num/den. -/
def tenPowLe (k : Int) (num den : Nat) : Bool :=
  if 0 ≤ k then decide (10 ^ k.toNat * den ≤ num) else decide (den ≤ num * 10 ^ (-k).toNat)

/-- Floor of log10 of the positive rational num/den: the unique k with
10^k ≤ num/den < 10^(k+1), located from the digit counts and fixed up by
direct comparison. -/
def floorLog10Rat (num den : Nat) : Int :=
  let base : Int := (digitCount 1200 num : Int) - (digitCount 1200 den : Int)
  if tenPowLe (base + 1) num den then base + 1
  else if tenPowLe base num den then base
  else if tenPowLe (base - 1) num den then base - 1
  else base - 2

/-- Floor of (num/den) / 10^p. -/
def floorDivPow10 (num den : Nat) (p : Int) : Nat :=
  if 0 ≤ p then num / (den * 10 ^ p.toNat) else num * 10 ^ (-p).toNat / den

/-- Core of the shortest-decimal search: starting at d significant digits,
find the fewest-digit decimal n * 10^p inside the rounding interval
(ln/ld, un/ud) of the value vn/vd (bounds inclusive iff `inclusive`);
when both grid neighbours qualify take the one nearer the value, ties to
the even digit string.  Returns the pair (n, p). -/
def shortestSearch (vn vd ln ld un ud : Nat) (inclusive : Bool) (e10 : Int) :
    Nat → Nat → Nat × Int
  | 0, d => (floorDivPow10 vn vd (e10 - (d : Int) + 1), e10 - (d : Int) + 1)
  | fuel + 1, d =>
    let p : Int := e10 - (d : Int) + 1
    let n0 := floorDivPow10 vn vd p
    let okIn : Nat × Nat → Bool := fun c =>
      (ratLt (ln, ld) c || (inclusive && ratEq (ln, ld) c)) &&
      (ratLt c (un, ud) || (inclusive && ratEq c (un, ud)))
    let ok0 := okIn (mulPow10 n0 p)
    let ok1 := okIn (mulPow10 (n0 + 1) p)
    if ok0 && ok1 then
      let mid := mulPow10 (2 * n0 + 1) p
      if ratLt (2 * vn, vd) mid then (n0, p)
      else if ratLt mid (2 * vn, vd) then (n0 + 1, p)
      else if n0 % 2 == 0 then (n0, p) else (n0 + 1, p)
    else if ok0 then (n0, p)
    else if ok1 then (n0 + 1, p)
    else shortestSearch vn vd ln ld un ud inclusive e10 fuel (d + 1)

/-- Remove trailing zero digits of n, bumping the exponent p accordingly. -/
def stripZeros : Nat → Nat → Int → Nat × Int
  | 0, n, p => (n, p)
  | fuel + 1, n, p => if n != 0 && n % 10 == 0 then stripZeros fuel (n / 10) (p + 1) else (n, p)

/-- Shortest round-trip decimal (n, p) with value n * 10^p for the positive
float64 with significand m (implicit bit included for normals) and binary
exponent e, so that the float's value is m * 2^e.  Mirrors
`strconv.roundShortest`: the admissible interval runs from the midpoint to
the previous float to the midpoint to the next float (the lower gap halves
when m is exactly 2^52 above the smallest binary exponent), with inclusive
bounds iff m is even. -/
def shortestDecimal (m : Nat) (e : Int) : Nat × Int :=
  let v := ratOfMantExp m e
  let upper := ratOfMantExp (2 * m + 1) (e - 1)
  let lower :=
    if m == 2 ^ 52 && e != -1074 then ratOfMantExp (4 * m - 1) (e - 2)
    else ratOfMantExp (2 * m - 1) (e - 1)
  let inclusive := m % 2 == 0
  let e10 := floorLog10Rat v.1 v.2
  let (n, p) := shortestSearch v.1 v.2 lower.1 lower.2 upper.1 upper.2 inclusive e10 20 1
  stripZeros 25 n p

/-- A run of k zero characters. -/
def zerosStr (k : Nat) : String := String.mk (List.replicate k '0')

/-- Go %f layout of a digit string whose decimal point sits after position
dp (value = 0.digits * 10^dp). -/
def fmtF (digits : String) (dp : Int) : String :=
  if dp ≤ 0 then "0." ++ zerosStr (-dp).toNat ++ digits
  else if (digits.length : Int) ≤ dp then digits ++ zerosStr (dp - (digits.length : Int)).toNat
  else String.mk (digits.toList.take dp.toNat) ++ "." ++ String.mk (digits.toList.drop dp.toNat)

/-- Go %e layout of a digit string with decimal exponent exp: first digit,
optional fraction, then e, the exponent sign and at least two exponent
digits. -/
def fmtE (digits : String) (exp : Int) : String :=
  let cs := digits.toList
  let head := String.mk (cs.take 1)
  let rest := cs.drop 1
  let a := exp.natAbs
  head ++ (if rest.isEmpty then "" else "." ++ String.mk rest) ++ "e" ++
    (if exp < 0 then "-" else "+") ++ (if a < 10 then "0" ++ Nat.repr a else Nat.repr a)

/-- Go `strconv.FormatFloat(v, 'g', -1, 64)` on the bit pattern of v: NaN
and infinities by name, signed zero, and otherwise the shortest round-trip
decimal in %e form iff its decimal exponent is < -4 or ≥ 6, else %f
form. -/
def strconvFormatFloat (bits : Nat) : String :=
  let sign := f64Sign bits
  let E := f64Exp bits
  let M := f64Mant bits
  if E == 2047 then (if M == 0 then (if sign then "-Inf" else "+Inf") else "NaN")
  else if E == 0 && M == 0 then (if sign then "-0" else "0")
  else
    let m := if E == 0 then M else 2 ^ 52 + M
    let e : Int := if E == 0 then -1074 else (E : Int) - 1075
    let np := shortestDecimal m e
    let digits := Nat.repr np.1
    let dp : Int := np.2 + (digits.length : Int)
    let exp : Int := dp - 1
    (if sign then "-" else "") ++
      (if exp < -4 || 6 ≤ exp then fmtE digits exp else fmtF digits dp)

/-- Decimal text of the two's-complement reading of a 64-bit pattern
(`strconv.AppendInt(dst, int64(v.num), 10)`). -/
def int64Repr (num : Nat) : String :=
  if num < 2 ^ 63 then Nat.repr num else "-" ++ Nat.repr (2 ^ 64 - num)

/-- Space-separated join, the element layout of Go `fmt` for slices. -/
def sepSpace : List String → String
  | [] => ""
  | [s] => s
  | s :: rest => s ++ " " ++ sepSpace rest

mutual
/-- append appends a text representation of v to dst (`value.go` lines
627-648, plus the `KindUint64` arm from line 296 of the first version):
strconv formatting for scalars, `<nil>` for Empty, and `fmt.Append` for
bytes/list/group, which lays a slice out as `[` elements separated by
spaces `]`, each element via its `String` method. -/
def Value.append : Value → StrT → StrT
  | .str s, dst => dst ++ s
  | .int64 num, dst => dst ++ int64Repr num
  | .uint64 num, dst => dst ++ Nat.repr num
  | .float64 num, dst => dst ++ strconvFormatFloat num
  | .bool b, dst => dst ++ (if b then "true" else "false")
  | .bytes bs, dst => dst ++ "[" ++ sepSpace (bs.map Nat.repr) ++ "]"
  | .group kvs, dst => dst ++ "[" ++ appendKVs kvs ++ "]"
  | .list vs, dst => dst ++ "[" ++ appendValues vs ++ "]"
  | .empty, dst => dst ++ "<nil>"
  termination_by structural v _ => v
/-- Elements of a group as laid out by `fmt`: the members' `String` texts
joined by single spaces. -/
def appendKVs : KeyValueSeq → StrT
  | [] => ""
  | [a] => KeyValue.String a
  | a :: rest => KeyValue.String a ++ " " ++ appendKVs rest
  termination_by structural as => as
/-- Elements of a list value as laid out by `fmt`: the members' `String`
texts joined by single spaces (the match inlines `Value.String`, which
returns the backing text for String kind and `append` to an empty buffer
otherwise). -/
def appendValues : ValueSeq → StrT
  | [] => ""
  | [v] => (match v with | .str s => s | w => Value.append w "")
  | v :: rest =>
    (match v with | .str s => s | w => Value.append w "") ++ " " ++ appendValues rest
  termination_by structural vs => vs
/-- String returns `key=value` via `fmt.Sprintf("%s=%s", a.Key, a.Value)`
(`keyvalue.go` lines 65-67); the `%s` of the value is its `String` method,
inlined as in `appendValues`. -/
def KeyValue.String : KeyValue → StrT
  | .mk k v => k ++ "=" ++ (match v with | .str s => s | w => Value.append w "")
  termination_by structural a => a
end

/-- String returns Value's value as a string, formatted like `fmt.Sprint`
(`value.go` lines 495-501): the backing text directly for String kind, and
`append` into an empty buffer otherwise; unlike the typed accessors it
never panics. -/
def Value.String : Value → StrT
  | .str s => s
  | v => Value.append v ""

/-! ### The record's attribute container (`logtest` record type)

The container is `front` (an inline array of 5 KeyValue), `nFront` (the
number of used inline slots) and `back` (an overflow slice).  Because
`AddAttributes` appends to `back` in place and `Clone`/`SetAttributes`
copy with `slices.Clone`, slice aliasing is observable; the embedding
therefore models Go slices explicitly: a `Store` is the set of allocated
backing arrays (an array's list length is its capacity), and a `GoSlice`
is a view (array id, offset, length) into one of them. -/

/-- A Go slice header: backing array id, offset and length. -/
structure GoSlice where
  id : Nat
  off : Nat
  len : Nat

/-- The allocation store: array id i is the i-th entry; the entry's list
length is the array's capacity. -/
abbrev Store := List (List KeyValue)

/-- The backing array with the given id (empty for ids never allocated). -/
def arrayOf (st : Store) (i : Nat) : List KeyValue := st.getD i []

/-- The elements a slice views: `len` entries of its array starting at
`off`. -/
def readSlice (st : Store) (s : GoSlice) : List KeyValue :=
  ((arrayOf st s.id).drop s.off).take s.len

/-- The capacity of a slice: its array's length minus its offset. -/
def sliceCap (st : Store) (s : GoSlice) : Nat := (arrayOf st s.id).length - s.off

/-- Replace the backing array with the given id. -/
def writeArr (st : Store) (i : Nat) (a : List KeyValue) : Store := st.set i a

/-- Overwrite one element of the backing array with the given id (a Go
`s[j] = kv` through some other slice of that array). -/
def writeElem (st : Store) (i j : Nat) (kv : KeyValue) : Store :=
  writeArr st i ((arrayOf st i).set j kv)

/-- Allocate a fresh backing array holding exactly the given elements and
return the full-view slice of it. -/
def allocSlice (st : Store) (a : List KeyValue) : Store × GoSlice :=
  (st ++ [a], ⟨st.length, 0, a.length⟩)

/-- Go `slices.Clone(s)`: a slice over a freshly allocated copy of the
viewed elements. -/
def slicesClone (st : Store) (s : GoSlice) : Store × GoSlice :=
  allocSlice st (readSlice st s)

/-- The zero KeyValue (empty key, Empty value), the content of unused
inline slots of a fresh record. -/
def zeroKV : KeyValue := .mk "" .empty

/-- Go `slices.Grow(s, n)`: unchanged when the spare capacity already
covers n, otherwise a reallocation with the same elements and at least n
spare slots. -/
def slicesGrow (st : Store) (s : GoSlice) (n : Nat) : Store × GoSlice :=
  if n ≤ sliceCap st s - s.len then (st, s)
  else
    let p := allocSlice st (readSlice st s ++ List.replicate n zeroKV)
    (p.1, ⟨p.2.id, 0, s.len⟩)

/-- Go `append(s, xs...)`: writes into the spare capacity of s's array when
it suffices (observable through other views of that array), otherwise into
a fresh allocation. -/
def goAppend (st : Store) (s : GoSlice) (xs : List KeyValue) : Store × GoSlice :=
  if xs.length ≤ sliceCap st s - s.len then
    (writeArr st s.id ((arrayOf st s.id).take (s.off + s.len) ++ xs ++
      (arrayOf st s.id).drop (s.off + s.len + xs.length)),
     ⟨s.id, s.off, s.len + xs.length⟩)
  else
    allocSlice st (readSlice st s ++ xs)

/-- attributesInlineCount is the number of attributes stored inline in a
record. -/
def attributesInlineCount : Nat := 5

/-- The attribute-holding part of the `logtest` record: the inline array
`front` (always of length `attributesInlineCount`), the count `nFront` of
used inline slots, and the overflow slice `back`. -/
structure Rec where
  front : List KeyValue
  nFront : Nat
  back : GoSlice

/-- Overwrite `front[n], front[n+1], ...` with the elements of xs (the
unrolling of the source's `r.front[r.nFront] = a; r.nFront++` loop). -/
def fillFront (front : List KeyValue) (n : Nat) (xs : List KeyValue) : List KeyValue :=
  front.take n ++ xs ++ front.drop (n + xs.length)

/-- AddAttributes adds attributes to the record (`benchmark.yml` document 2,
lines 183-193): fill the remaining inline slots first, then grow `back` by
exactly the number of remaining attributes and append them. -/
def addAttributes (st : Store) (r : Rec) (attrs : List KeyValue) : Store × Rec :=
  let k := min (attributesInlineCount - r.nFront) attrs.length
  let front := fillFront r.front r.nFront (attrs.take k)
  let rest := attrs.drop k
  let g := slicesGrow st r.back rest.length
  let ap := goAppend g.1 g.2 rest
  (ap.1, ⟨front, r.nFront + k, ap.2⟩)

/-- SetAttributes sets (and overrides) attributes of the record
(`benchmark.yml` document 2, lines 196-206): reset `nFront` to zero,
refill the inline slots from the new sequence, and make `back` a
`slices.Clone` of the remainder of the caller's slice. -/
def setAttributes (st : Store) (r : Rec) (attrs : GoSlice) : Store × Rec :=
  let k := min attributesInlineCount attrs.len
  let front := fillFront r.front 0 ((readSlice st attrs).take k)
  let c := slicesClone st ⟨attrs.id, attrs.off + k, attrs.len - k⟩
  (c.1, ⟨front, k, c.2⟩)

/-- WalkAttributes visits the used inline slots in order, then the overflow
entries in order (`benchmark.yml` document 2, lines 169-180); modelled as
the visited sequence. -/
def walkAttributes (st : Store) (r : Rec) : List KeyValue :=
  r.front.take r.nFront ++ readSlice st r.back

/-- AttributesLen returns the number of attributes in the record
(`benchmark.yml` document 2, lines 209-211). -/
def attributesLen (r : Rec) : Nat := r.nFront + r.back.len

/-- Clone returns a copy of the record with no shared state (`benchmark.yml`
document 2, lines 281-285): the struct copies by value and `back` is
`slices.Clone`d. -/
def cloneRec (st : Store) (r : Rec) : Store × Rec :=
  let c := slicesClone st r.back
  (c.1, { r with back := c.2 })

/-- A slice header is valid in a store when its array exists and its view
fits in the array. -/
def validSlice (st : Store) (s : GoSlice) : Bool :=
  decide (s.id < st.length) && decide (s.off + s.len ≤ (arrayOf st s.id).length)

/-- A record is valid in a store when its inline array has exactly
`attributesInlineCount` slots, `nFront` does not exceed them, and `back`
is a valid slice. -/
def validRec (st : Store) (r : Rec) : Bool :=
  (r.front.length == attributesInlineCount) &&
  decide (r.nFront ≤ attributesInlineCount) && validSlice st r.back

/-- The zero record: empty inline slots, no overflow (its nil `back` views
the permanently empty array 0 of the initial store). -/
def zeroRec : Rec := ⟨List.replicate attributesInlineCount zeroKV, 0, ⟨0, 0, 0⟩⟩

/-- The initial store: only the empty array 0 (the target of nil slices). -/
def store0 : Store := [[]]

/-- One mutation of a record: an `AddAttributes` or a `SetAttributes` call
with the given attributes (a `Set` call first materialises its variadic
argument as a fresh slice). -/
inductive RecOp where
  | add (attrs : List KeyValue)
  | set (attrs : List KeyValue)

/-- Run one mutation. -/
def runOp : Store × Rec → RecOp → Store × Rec
  | (st, r), .add attrs => addAttributes st r attrs
  | (st, r), .set attrs =>
    let p := allocSlice st attrs
    setAttributes p.1 r p.2

/-- Run a sequence of mutations from the zero record. -/
def runOps (ops : List RecOp) : Store × Rec := ops.foldl runOp (store0, zeroRec)

/-- Whether every operation in the sequence is an `AddAttributes`. -/
def allAdds : List RecOp → Bool
  | [] => true
  | .add _ :: rest => allAdds rest
  | .set _ :: _ => false

/-! ### Properties of Equal -/

/-- Boolean equality tests of lawful BEq types are symmetric. -/
theorem beqComm {α : Type} [BEq α] [LawfulBEq α] (a b : α) : (a == b) = (b == a) := by
  by_cases h : a = b
  · subst h; rfl
  · have h2 : ¬ b = a := fun e => h e.symm
    rw [beq_eq_false_iff_ne.mpr h, beq_eq_false_iff_ne.mpr h2]

/-- The modelled float64 `==` is symmetric. -/
theorem f64Eq_comm (x y : Nat) : f64Eq x y = f64Eq y x := by
  unfold f64Eq
  rw [Bool.or_comm (f64IsNaN x), beqComm x y, Bool.and_comm (f64IsZero x)]

mutual
/-- Value.Equal is symmetric. -/
theorem vEqual_symm : ∀ v w : Value, Value.Equal v w = Value.Equal w v
  | .empty, w => by cases w <;> rfl
  | .bool b, w => by cases w <;> first | rfl | exact beqComm b _
  | .int64 n, w => by cases w <;> first | rfl | exact beqComm n _
  | .uint64 n, w => by cases w <;> first | rfl | exact beqComm n _
  | .float64 n, w => by cases w <;> first | rfl | exact f64Eq_comm n _
  | .str s, w => by cases w <;> first | rfl | exact beqComm s _
  | .bytes bs, w => by cases w <;> first | rfl | exact beqComm bs _
  | .list vs, w => by cases w <;> first | rfl | exact valuesEqual_symm vs _
  | .group gs, w => by cases w <;> first | rfl | exact keyValuesEqual_symm gs _
  termination_by structural v _ => v
/-- Pairwise equality of Value sequences is symmetric. -/
theorem valuesEqual_symm : ∀ vs ws, valuesEqual vs ws = valuesEqual ws vs
  | [], [] => rfl
  | [], _ :: _ => rfl
  | _ :: _, [] => rfl
  | v :: vs, w :: ws => by
    simp only [valuesEqual]
    rw [vEqual_symm v w, valuesEqual_symm vs ws]
  termination_by structural vs _ => vs
/-- Pairwise equality of KeyValue sequences is symmetric. -/
theorem keyValuesEqual_symm : ∀ gs hs, keyValuesEqual gs hs = keyValuesEqual hs gs
  | [], [] => rfl
  | [], _ :: _ => rfl
  | _ :: _, [] => rfl
  | a :: gs, b :: hs => by
    simp only [keyValuesEqual]
    rw [kvEqual_symm a b, keyValuesEqual_symm gs hs]
  termination_by structural gs _ => gs
/-- KeyValue.Equal is symmetric. -/
theorem kvEqual_symm : ∀ a b : KeyValue, KeyValue.Equal a b = KeyValue.Equal b a
  | .mk k1 v1, .mk k2 v2 => by
    simp only [KeyValue.Equal]
    rw [beqComm k1 k2, vEqual_symm v1 v2]
  termination_by structural a _ => a
end

/-- Values of different kinds are never Equal. -/
theorem vEqual_ne_kind (v w : Value) (h : Value.Kind v ≠ Value.Kind w) :
    Value.Equal v w = false := by
  cases v <;> cases w <;> first | rfl | exact absurd rfl h

mutual
/-- Whether a Value contains no NaN float64 component at any depth (the
reflexivity domain of `Value.Equal`). -/
def Value.noNaN : Value → BoolT
  | .float64 num => !f64IsNaN num
  | .list vs => valuesNoNaN vs
  | .group kvs => keyValuesNoNaN kvs
  | _ => true
  termination_by structural v => v
/-- Whether every Value in a sequence is NaN-free. -/
def valuesNoNaN : ValueSeq → BoolT
  | [] => true
  | v :: vs => Value.noNaN v && valuesNoNaN vs
  termination_by structural vs => vs
/-- Whether every value of a KeyValue sequence is NaN-free. -/
def keyValuesNoNaN : KeyValueSeq → BoolT
  | [] => true
  | .mk _ v :: as => Value.noNaN v && keyValuesNoNaN as
  termination_by structural as => as
end

mutual
/-- Value.Equal is reflexive on NaN-free Values. -/
theorem vEqual_refl : ∀ v : Value, Value.noNaN v = true → Value.Equal v v = true
  | .empty, _ => rfl
  | .bool b, _ => by simp [Value.Equal]
  | .int64 n, _ => by simp [Value.Equal]
  | .uint64 n, _ => by simp [Value.Equal]
  | .str s, _ => by simp [Value.Equal]
  | .bytes bs, _ => by simp [Value.Equal]
  | .float64 n, h => by
    have hn : f64IsNaN n = false := by
      simpa [Value.noNaN] using h
    simp [Value.Equal, f64Eq, hn]
  | .list vs, h => valuesEqual_refl vs (by simpa [Value.noNaN] using h)
  | .group kvs, h => keyValuesEqual_refl kvs (by simpa [Value.noNaN] using h)
  termination_by structural v => v
/-- Pairwise Value-sequence equality is reflexive on NaN-free sequences. -/
theorem valuesEqual_refl : ∀ vs, valuesNoNaN vs = true → valuesEqual vs vs = true
  | [], _ => rfl
  | v :: vs, h => by
    have h1 : Value.noNaN v = true ∧ valuesNoNaN vs = true := by
      simpa [valuesNoNaN, Bool.and_eq_true] using h
    simp only [valuesEqual, Bool.and_eq_true]
    exact ⟨vEqual_refl v h1.1, valuesEqual_refl vs h1.2⟩
  termination_by structural vs => vs
/-- Pairwise KeyValue-sequence equality is reflexive on NaN-free
sequences. -/
theorem keyValuesEqual_refl : ∀ as, keyValuesNoNaN as = true → keyValuesEqual as as = true
  | [], _ => rfl
  | .mk k v :: as, h => by
    have h1 : Value.noNaN v = true ∧ keyValuesNoNaN as = true := by
      simpa [keyValuesNoNaN, Bool.and_eq_true] using h
    simp only [keyValuesEqual, KeyValue.Equal, Bool.and_eq_true]
    exact ⟨⟨by simp, vEqual_refl v h1.1⟩, keyValuesEqual_refl as h1.2⟩
  termination_by structural as => as
end

/-! ### Claims C1 and C3 -/

/-- C1 counterexample: the claim asserts `Float64Value(x).Equal(Float64Value(x))`
is true for every bit pattern x, even NaN; but on a NaN pattern
(0x7FF8000000000000, the canonical quiet NaN) the source's
`v.float() == w.float()` comparison is IEEE `==` and yields false. -/
theorem c1_float_equal_counterexample :
    Value.Equal (Float64Value 0x7FF8000000000000) (Float64Value 0x7FF8000000000000) = false := rfl

/-- C1 (amended): `Value.Equal` on two Float64-kind Values compares by
IEEE-754 numeric equality of the decoded floats, not by raw bit patterns:
`Float64Value(x).Equal(Float64Value(y))` is true iff neither pattern is a
NaN encoding and the patterns are identical or are the two zero encodings;
in particular a NaN Value is not Equal to itself, and +0 and -0 are Equal
despite distinct patterns. -/
theorem c1_float_equal_is_ieee (x y : Nat) (hx : x < 2 ^ 64) (hy : y < 2 ^ 64) :
    Value.Equal (Float64Value x) (Float64Value y) = true ↔
      f64IsNaN x = false ∧ f64IsNaN y = false ∧
        (x = y ∨ (f64IsZero x = true ∧ f64IsZero y = true)) := by
  have ex : Float64Value x = Value.float64 x := by
    simp only [Float64Value]
    rw [Nat.mod_eq_of_lt hx]
  have ey : Float64Value y = Value.float64 y := by
    simp only [Float64Value]
    rw [Nat.mod_eq_of_lt hy]
  rw [ex, ey]
  show f64Eq x y = true ↔ _
  unfold f64Eq
  by_cases hnx : f64IsNaN x <;> by_cases hny : f64IsNaN y <;>
    simp [hnx, hny, Bool.or_eq_true, Bool.and_eq_true, beq_iff_eq]

/-- Witness for C1 (amended) at the bit pattern of 1.0. -/
theorem c1_float_equal_is_ieee_witness :
    Value.Equal (Float64Value 0x3FF0000000000000) (Float64Value 0x3FF0000000000000) = true :=
  (c1_float_equal_is_ieee 0x3FF0000000000000 0x3FF0000000000000 (by decide)
    (by decide)).mpr ⟨rfl, rfl, Or.inl rfl⟩

/-- C3 counterexample: the claim asserts Equal is reflexive for every
constructed Value, including Float64 Values built from NaN; a Value built
from the signalling-NaN pattern 0x7FF0000000000001 is not Equal to
itself. -/
theorem c3_equal_reflexive_counterexample :
    Value.Equal (Float64Value 0x7FF0000000000001) (Float64Value 0x7FF0000000000001) = false := rfl

/-- C3 (amended): `Value.Equal` is symmetric for all Values and reflexive
for all Values with no NaN float64 component (reflexivity fails exactly on
NaN-containing Values); two Values of different kinds are never Equal; and
any two Empty-kind Values are Equal. -/
theorem c3_equal_relational :
    (∀ v w : Value, Value.Equal v w = Value.Equal w v) ∧
    (∀ v : Value, Value.noNaN v = true → Value.Equal v v = true) ∧
    (∀ v w : Value, Value.Kind v ≠ Value.Kind w → Value.Equal v w = false) ∧
    Value.Equal .empty .empty = true :=
  ⟨vEqual_symm, vEqual_refl, vEqual_ne_kind, rfl⟩

/-- Witness for C3 (amended) at concrete Values. -/
theorem c3_equal_relational_witness :
    Value.Equal (Int64Value 5) (Int64Value 5) = true ∧
    Value.Equal (BoolValue true) (Int64Value 5) = false :=
  ⟨c3_equal_relational.2.1 (Int64Value 5) rfl,
   c3_equal_relational.2.2.1 (BoolValue true) (Int64Value 5) (by decide)⟩

/-! ### Claim C4 -/

/-- A member sequence without empty-group members is kept by the filter. -/
theorem filter_of_countEmptyGroups_zero :
    ∀ kvs : List KeyValue, countEmptyGroups kvs = 0 →
      (kvs.filter fun a => !a.Value.isEmptyGroup) = kvs := by
  intro kvs h
  induction kvs with
  | nil => rfl
  | cons a as ih =>
    have h2 : (if a.Value.isEmptyGroup then 1 else 0) + countEmptyGroups as = 0 := h
    have ha : a.Value.isEmptyGroup = false := by
      by_cases hc : a.Value.isEmptyGroup
      · simp [hc] at h2
      · simpa using hc
    have has : countEmptyGroups as = 0 := by omega
    simp [List.filter, ha, ih has]

/-- C4: `GroupValue` removes exactly the members whose Value is an empty
Group, in one shallow pass that keeps the remaining members unchanged and
in order (the result always reads back as the filter of the argument);
and the literal instance from the spec reads back with the doubly-empty
`"g1"` branch removed and the `"g3"` branch intact. -/
theorem c4_group_flattening :
    (∀ kvs : List KeyValue,
      Value.Group (GroupValue kvs) = some (kvs.filter fun a => !a.Value.isEmptyGroup)) ∧
    Value.Group (GroupValue [Log.Int "a" 1, Log.Group "g1" [Log.Group "g2" []],
        Log.Group "g3" [Log.Group "g4" [Log.Int "b" 2]]]) =
      some [Log.Int "a" 1, Log.Group "g3" [Log.Group "g4" [Log.Int "b" 2]]] := by
  constructor
  · intro kvs
    unfold GroupValue
    by_cases h : countEmptyGroups kvs > 0
    · simp [h, Value.Group]
    · have h0 : countEmptyGroups kvs = 0 := by omega
      simp [h, Value.Group, filter_of_countEmptyGroups_zero kvs h0]
  · rfl

/-! ### Claim C7 -/

/-- C7: for every constructed Value, each typed accessor succeeds (returns
rather than panics) exactly when the Value's Kind matches the accessor's
kind; `Kind` and `String` are total functions of the embedding and so
never panic. -/
theorem c7_accessor_kind_discipline (v : Value) :
    ((Value.Bool v).isSome = true ↔ Value.Kind v = .Bool) ∧
    ((Value.Int64 v).isSome = true ↔ Value.Kind v = .Int64) ∧
    ((Value.Uint64 v).isSome = true ↔ Value.Kind v = .Uint64) ∧
    ((Value.Float64 v).isSome = true ↔ Value.Kind v = .Float64) ∧
    ((Value.Bytes v).isSome = true ↔ Value.Kind v = .Bytes) ∧
    ((Value.List v).isSome = true ↔ Value.Kind v = .List) ∧
    ((Value.Group v).isSome = true ↔ Value.Kind v = .Group) := by
  cases v <;>
    simp [Value.Bool, Value.Int64, Value.Uint64, Value.Float64, Value.Bytes,
      Value.List, Value.Group, Value.Kind]

/-! ### Claim C8 -/

/-- C8: the literal String() outputs; 0x3FC3333333333333 is the IEEE-754
bit pattern of the float64 literal 0.15. -/
theorem c8_string_literals :
    Value.String (StringValue "foo") = "foo" ∧
    Value.String (Int64Value (-3)) = "-3" ∧
    Value.String (Float64Value 0x3FC3333333333333) = "0.15" ∧
    Value.String (BoolValue true) = "true" ∧
    Value.String (GroupValue [Log.Int "a" 1, Log.Bool "b" true]) = "[a=1 b=true]" ∧
    Value.String .empty = "<nil>" :=
  ⟨rfl, rfl, rfl, rfl, rfl, rfl⟩

/-! ### Claim C10 -/

/-- C10: every public constructor round-trips through its typed accessor:
Int64 for int64-range integers, Bool, Float64 (same bit pattern), String
(via the String method), Bytes, Uint64 for uint64-range naturals, List,
and Group when no member is an empty group. -/
theorem c10_constructor_roundtrip :
    (∀ x : Int, -(2 ^ 63) ≤ x → x < 2 ^ 63 → Value.Int64 (Int64Value x) = some x) ∧
    (∀ b : Bool, Value.Bool (BoolValue b) = some b) ∧
    (∀ bits : Nat, bits < 2 ^ 64 → Value.Float64 (Float64Value bits) = some bits) ∧
    (∀ s : String, Value.String (StringValue s) = s) ∧
    (∀ bs : List Nat, Value.Bytes (BytesValue bs) = some bs) ∧
    (∀ u : Nat, u < 2 ^ 64 → Value.Uint64 (Uint64Value u) = some u) ∧
    (∀ vs : List Value, Value.List (ListValue vs) = some vs) ∧
    (∀ kvs : List KeyValue, countEmptyGroups kvs = 0 →
      Value.Group (GroupValue kvs) = some kvs) := by
  refine ⟨?_, ?_, ?_, ?_, ?_, ?_, ?_, ?_⟩
  · intro x h1 h2
    norm_num at h1 h2
    simp only [Int64Value, Value.Int64, Option.some.injEq,
      show ((2 : Int) ^ 64) = 18446744073709551616 by norm_num,
      show ((2 : Nat) ^ 63) = 9223372036854775808 by norm_num]
    split <;> omega
  · intro b; rfl
  · intro bits h
    simp only [Float64Value, Value.Float64]
    rw [Nat.mod_eq_of_lt h]
  · intro s; rfl
  · intro bs; rfl
  · intro u h
    simp only [Uint64Value, Value.Uint64]
    rw [Nat.mod_eq_of_lt h]
  · intro vs; rfl
  · intro kvs h
    unfold GroupValue
    simp [h, Value.Group]

/-- Witness for C10 at concrete inputs for each hypothesis-bearing
conjunct. -/
theorem c10_constructor_roundtrip_witness :
    Value.Int64 (Int64Value (-7)) = some (-7) ∧
    Value.Float64 (Float64Value 5) = some 5 ∧
    Value.Uint64 (Uint64Value 9) = some 9 ∧
    Value.Group (GroupValue [Log.Int "a" 1]) = some [Log.Int "a" 1] :=
  ⟨c10_constructor_roundtrip.1 (-7) (by decide) (by decide),
   c10_constructor_roundtrip.2.2.1 5 (by decide),
   c10_constructor_roundtrip.2.2.2.2.2.1 9 (by decide),
   c10_constructor_roundtrip.2.2.2.2.2.2.2 [Log.Int "a" 1] rfl⟩

/-! ### Store and slice lemmas -/

/-- Writing one array leaves every other array unchanged. -/
theorem arrayOf_writeArr_ne (st : Store) (i j : Nat) (a : List KeyValue) (h : j ≠ i) :
    arrayOf (writeArr st i a) j = arrayOf st j := by
  unfold arrayOf writeArr
  rw [List.getD_eq_getElem?_getD, List.getD_eq_getElem?_getD,
    List.getElem?_set_ne (fun e => h e.symm)]

/-- Writing an existing array makes it the stored content. -/
theorem arrayOf_writeArr_self (st : Store) (i : Nat) (a : List KeyValue) (h : i < st.length) :
    arrayOf (writeArr st i a) i = a := by
  unfold arrayOf writeArr
  rw [List.getD_eq_getElem?_getD, List.getElem?_set_self', List.getElem?_eq_getElem h]
  rfl

/-- Allocation leaves every existing array unchanged. -/
theorem arrayOf_append_lt (st : Store) (a : List KeyValue) (j : Nat) (h : j < st.length) :
    arrayOf (st ++ [a]) j = arrayOf st j := by
  unfold arrayOf
  rw [List.getD_append _ _ _ _ h]

/-- The freshly allocated array holds the allocated content. -/
theorem arrayOf_append_self (st : Store) (a : List KeyValue) :
    arrayOf (st ++ [a]) st.length = a := by
  unfold arrayOf
  rw [List.getD_append_right _ _ _ _ (Nat.le_refl _), Nat.sub_self]
  rfl

/-- Unpacking of slice validity. -/
theorem validSlice_iff (st : Store) (s : GoSlice) :
    validSlice st s = true ↔ s.id < st.length ∧ s.off + s.len ≤ (arrayOf st s.id).length := by
  simp [validSlice]

/-- Unpacking of record validity. -/
theorem validRec_iff (st : Store) (r : Rec) :
    validRec st r = true ↔
      r.front.length = attributesInlineCount ∧ r.nFront ≤ attributesInlineCount ∧
        validSlice st r.back = true := by
  simp [validRec, and_assoc]

/-- What a slice views depends only on its own backing array. -/
theorem readSlice_congr (st st2 : Store) (s : GoSlice)
    (h : arrayOf st2 s.id = arrayOf st s.id) : readSlice st2 s = readSlice st s := by
  unfold readSlice
  rw [h]

/-- A valid slice views exactly `len` elements. -/
theorem readSlice_length (st : Store) (s : GoSlice) (h : validSlice st s = true) :
    (readSlice st s).length = s.len := by
  rcases (validSlice_iff st s).mp h with ⟨-, h2⟩
  unfold readSlice
  rw [List.length_take, List.length_drop]
  omega

/-- A slice stays valid in any store that has at least as many arrays and
the same content at the slice's array. -/
theorem validSlice_mono (st st2 : Store) (s : GoSlice) (h : validSlice st s = true)
    (hlen : st.length ≤ st2.length) (harr : arrayOf st2 s.id = arrayOf st s.id) :
    validSlice st2 s = true := by
  rcases (validSlice_iff st s).mp h with ⟨h1, h2⟩
  exact (validSlice_iff st2 s).mpr ⟨by omega, by rw [harr]; exact h2⟩

/-- Dropping the first k viewed elements of a slice is viewing the slice
advanced by k. -/
theorem readSlice_advance (st : Store) (id off len k : Nat) :
    readSlice st ⟨id, off + k, len - k⟩ = (readSlice st ⟨id, off, len⟩).drop k := by
  unfold readSlice
  rw [List.drop_take, List.drop_drop]

/-- Specification of `allocSlice`: the new slice is valid, views the
allocated content, is the fresh array id, and existing arrays are
untouched. -/
theorem allocSlice_spec (st : Store) (a : List KeyValue) :
    validSlice (allocSlice st a).1 (allocSlice st a).2 = true ∧
    readSlice (allocSlice st a).1 (allocSlice st a).2 = a ∧
    (allocSlice st a).2 = ⟨st.length, 0, a.length⟩ ∧
    (allocSlice st a).1.length = st.length + 1 ∧
    ∀ j, j < st.length → arrayOf (allocSlice st a).1 j = arrayOf st j := by
  have harr : arrayOf (st ++ [a]) st.length = a := arrayOf_append_self st a
  refine ⟨?_, ?_, rfl, ?_, fun j hj => arrayOf_append_lt st a j hj⟩
  · refine (validSlice_iff _ _).mpr ⟨?_, ?_⟩
    · show st.length < (st ++ [a]).length
      rw [List.length_append]
      simp
    · show 0 + a.length ≤ (arrayOf (st ++ [a]) st.length).length
      rw [harr]
      omega
  · show ((arrayOf (st ++ [a]) st.length).drop 0).take a.length = a
    rw [harr, List.drop_zero, List.take_length]
  · show (st ++ [a]).length = st.length + 1
    rw [List.length_append]
    simp

/-- Specification of `slicesGrow`: the grown slice is valid, views the same
elements with unchanged length, has spare capacity for n more, keeps its
array id or moves to the fresh one, and no existing array is modified. -/
theorem slicesGrow_spec (st : Store) (s : GoSlice) (n : Nat) (h : validSlice st s = true) :
    validSlice (slicesGrow st s n).1 (slicesGrow st s n).2 = true ∧
    readSlice (slicesGrow st s n).1 (slicesGrow st s n).2 = readSlice st s ∧
    (slicesGrow st s n).2.len = s.len ∧
    n ≤ sliceCap (slicesGrow st s n).1 (slicesGrow st s n).2 - (slicesGrow st s n).2.len ∧
    ((slicesGrow st s n).2.id = s.id ∨ (slicesGrow st s n).2.id = st.length) ∧
    st.length ≤ (slicesGrow st s n).1.length ∧
    (∀ j, j < st.length → arrayOf (slicesGrow st s n).1 j = arrayOf st j) := by
  unfold slicesGrow
  split
  · next hc => exact ⟨h, rfl, rfl, hc, Or.inl rfl, Nat.le_refl _, fun _ _ => rfl⟩
  · next hc =>
    have hrl : (readSlice st s).length = s.len := readSlice_length st s h
    have harr : arrayOf (st ++ [readSlice st s ++ List.replicate n zeroKV]) st.length
        = readSlice st s ++ List.replicate n zeroKV := arrayOf_append_self _ _
    refine ⟨?_, ?_, rfl, ?_, Or.inr rfl, by simp [allocSlice], ?_⟩
    · refine (validSlice_iff _ _).mpr ⟨by simp [allocSlice], ?_⟩
      show 0 + s.len ≤ _
      simp only [allocSlice]
      rw [harr]
      simp [hrl]
    · show ((arrayOf _ st.length).drop 0).take s.len = readSlice st s
      simp only [allocSlice]
      rw [harr, List.drop_zero, ← hrl, List.take_left]
    · show n ≤ (arrayOf _ st.length).length - 0 - s.len
      simp only [allocSlice]
      rw [harr]
      simp [hrl]
    · exact fun j hj => arrayOf_append_lt st _ j hj

/-- Taking exactly the first two of three appended blocks. -/
theorem take_append_append {α : Type} (X Y Z : List α) :
    (X ++ Y ++ Z).take (X.length + Y.length) = X ++ Y := by
  rw [List.append_assoc, List.take_append, List.take_left]

/-- Specification of `goAppend`: the result is valid, views the old
elements followed by the appended ones, grows the length accordingly,
keeps its array id or moves to the fresh one, and modifies no existing
array other than (possibly) its own. -/
theorem goAppend_spec (st : Store) (s : GoSlice) (xs : List KeyValue)
    (h : validSlice st s = true) :
    validSlice (goAppend st s xs).1 (goAppend st s xs).2 = true ∧
    readSlice (goAppend st s xs).1 (goAppend st s xs).2 = readSlice st s ++ xs ∧
    (goAppend st s xs).2.len = s.len + xs.length ∧
    ((goAppend st s xs).2.id = s.id ∨ (goAppend st s xs).2.id = st.length) ∧
    st.length ≤ (goAppend st s xs).1.length ∧
    (∀ j, j < st.length → j ≠ s.id → arrayOf (goAppend st s xs).1 j = arrayOf st j) := by
  rcases (validSlice_iff st s).mp h with ⟨hid, hfit⟩
  unfold goAppend
  split
  · next hc =>
    have hcap : s.off + s.len + xs.length ≤ (arrayOf st s.id).length := by
      unfold sliceCap at hc
      omega
    have hwlen : (writeArr st s.id
        ((arrayOf st s.id).take (s.off + s.len) ++ xs ++
          (arrayOf st s.id).drop (s.off + s.len + xs.length))).length = st.length := by
      unfold writeArr
      exact List.length_set ..
    have harr : arrayOf (writeArr st s.id
        ((arrayOf st s.id).take (s.off + s.len) ++ xs ++
          (arrayOf st s.id).drop (s.off + s.len + xs.length))) s.id
        = (arrayOf st s.id).take (s.off + s.len) ++ xs ++
          (arrayOf st s.id).drop (s.off + s.len + xs.length) :=
      arrayOf_writeArr_self st s.id _ hid
    have hlen2 : ((arrayOf st s.id).take (s.off + s.len) ++ xs ++
        (arrayOf st s.id).drop (s.off + s.len + xs.length)).length
        = (arrayOf st s.id).length := by
      simp only [List.length_append, List.length_take, List.length_drop]
      omega
    refine ⟨?_, ?_, rfl, Or.inl rfl, ?_, ?_⟩
    · refine (validSlice_iff _ _).mpr ⟨?_, ?_⟩
      · show s.id < _
        rw [hwlen]
        exact hid
      · show s.off + (s.len + xs.length) ≤ _
        rw [harr, hlen2]
        omega
    · show ((arrayOf _ s.id).drop s.off).take (s.len + xs.length) = _
      rw [harr]
      have e1 : ((arrayOf st s.id).take (s.off + s.len) ++ xs ++
          (arrayOf st s.id).drop (s.off + s.len + xs.length)).drop s.off
          = ((arrayOf st s.id).drop s.off).take s.len ++ xs ++
            (arrayOf st s.id).drop (s.off + s.len + xs.length) := by
        rw [List.append_assoc, List.drop_append_eq_append_drop, List.drop_take]
        have e2 : (s.off + s.len) - s.off = s.len := by omega
        have e3 : s.off - ((arrayOf st s.id).take (s.off + s.len)).length = 0 := by
          rw [List.length_take]
          omega
        rw [e2, e3, List.drop_zero, List.append_assoc]
      rw [e1]
      have e4 : (((arrayOf st s.id).drop s.off).take s.len).length = s.len := by
        rw [List.length_take, List.length_drop]
        omega
      have e6 := take_append_append (((arrayOf st s.id).drop s.off).take s.len) xs
        ((arrayOf st s.id).drop (s.off + s.len + xs.length))
      rw [e4] at e6
      rw [e6]
      rfl
    · show st.length ≤ (writeArr _ _ _).length
      rw [hwlen]
    · intro j _ hne
      exact arrayOf_writeArr_ne st s.id j _ hne
  · next hc =>
    have h5 := allocSlice_spec st (readSlice st s ++ xs)
    refine ⟨h5.1, h5.2.1, ?_, ?_, ?_, fun j hj _ => (h5.2.2.2.2 j hj)⟩
    · have e : (allocSlice st (readSlice st s ++ xs)).2.len
          = (readSlice st s ++ xs).length := by rw [h5.2.2.1]
      rw [e, List.length_append, readSlice_length st s h]
    · right
      rw [h5.2.2.1]
    · rw [h5.2.2.2.1]
      omega


/-! ### Specifications of the record operations -/

/-- The inline array keeps its length under `fillFront` when the write
fits. -/
theorem fillFront_length (front xs : List KeyValue) (n : Nat)
    (h1 : n + xs.length ≤ front.length) :
    (fillFront front n xs).length = front.length := by
  unfold fillFront
  simp only [List.length_append, List.length_take, List.length_drop]
  omega

/-- Reading back the first n + |xs| slots of a `fillFront` result: the
kept prefix followed by the written elements. -/
theorem fillFront_take (front xs : List KeyValue) (n : Nat)
    (h1 : n ≤ front.length) :
    (fillFront front n xs).take (n + xs.length) = front.take n ++ xs := by
  unfold fillFront
  have e4 : (front.take n).length = n := by
    rw [List.length_take]
    omega
  have e6 := take_append_append (front.take n) xs (front.drop (n + xs.length))
  rw [e4] at e6
  exact e6

/-- The slots beyond the written region of a `fillFront` result are the
original slots. -/
theorem fillFront_drop (front xs : List KeyValue) (n : Nat)
    (h1 : n ≤ front.length) :
    (fillFront front n xs).drop (n + xs.length) = front.drop (n + xs.length) := by
  unfold fillFront
  have e4 : (front.take n ++ xs).length = n + xs.length := by
    rw [List.length_append, List.length_take]
    omega
  have e5 : ((front.take n ++ xs) ++ front.drop (n + xs.length)).drop
        ((front.take n ++ xs).length + 0)
      = (front.drop (n + xs.length)).drop 0 := List.drop_append 0
  rw [e4, Nat.add_zero, List.drop_zero] at e5
  exact e5

/-- Frame part of `slicesGrow`: no existing array is modified, the id is
kept or fresh, the store only grows. -/
theorem slicesGrow_frame (st : Store) (s : GoSlice) (n : Nat) :
    (∀ j, j < st.length → arrayOf (slicesGrow st s n).1 j = arrayOf st j) ∧
    ((slicesGrow st s n).2.id = s.id ∨ (slicesGrow st s n).2.id = st.length) ∧
    st.length ≤ (slicesGrow st s n).1.length := by
  unfold slicesGrow
  split
  · exact ⟨fun _ _ => rfl, Or.inl rfl, Nat.le_refl _⟩
  · refine ⟨fun j hj => arrayOf_append_lt st _ j hj, Or.inr rfl, ?_⟩
    show st.length ≤ (st ++ [_]).length
    rw [List.length_append]
    omega

/-- Frame part of `goAppend`: no existing array other than (possibly) the
slice's own is modified, the id is kept or fresh, the store only grows. -/
theorem goAppend_frame (st : Store) (s : GoSlice) (xs : List KeyValue) :
    (∀ j, j < st.length → j ≠ s.id → arrayOf (goAppend st s xs).1 j = arrayOf st j) ∧
    ((goAppend st s xs).2.id = s.id ∨ (goAppend st s xs).2.id = st.length) ∧
    st.length ≤ (goAppend st s xs).1.length := by
  unfold goAppend
  split
  · refine ⟨fun j _ hne => arrayOf_writeArr_ne st s.id j _ hne, Or.inl rfl, ?_⟩
    show st.length ≤ (writeArr st s.id _).length
    unfold writeArr
    rw [List.length_set]
  · refine ⟨fun j hj _ => arrayOf_append_lt st _ j hj, Or.inr rfl, ?_⟩
    show st.length ≤ (st ++ [_]).length
    rw [List.length_append]
    omega

/-- Frame part of `addAttributes`: no existing array other than (possibly)
the record's own overflow array is modified; the new overflow array is the
old one or a fresh one; the store only grows. -/
theorem addAttributes_frame (st : Store) (r : Rec) (attrs : List KeyValue) :
    (∀ j, j < st.length → j ≠ r.back.id →
      arrayOf (addAttributes st r attrs).1 j = arrayOf st j) ∧
    ((addAttributes st r attrs).2.back.id = r.back.id ∨
      st.length ≤ (addAttributes st r attrs).2.back.id) ∧
    st.length ≤ (addAttributes st r attrs).1.length := by
  simp only [addAttributes]
  rcases hg1 : slicesGrow st r.back
      (attrs.drop (min (attributesInlineCount - r.nFront) attrs.length)).length
    with ⟨st1, b1⟩
  have hg := slicesGrow_frame st r.back
    (attrs.drop (min (attributesInlineCount - r.nFront) attrs.length)).length
  rw [hg1] at hg
  rcases ha1 : goAppend st1 b1
      (attrs.drop (min (attributesInlineCount - r.nFront) attrs.length))
    with ⟨st2, b2⟩
  have ha := goAppend_frame st1 b1
    (attrs.drop (min (attributesInlineCount - r.nFront) attrs.length))
  rw [ha1] at ha
  refine ⟨?_, ?_, ?_⟩
  · intro j hj hne
    have hne2 : j ≠ b1.id := by
      rcases hg.2.1 with e | e
      · rw [e]; exact hne
      · rw [e]; omega
    show arrayOf st2 j = arrayOf st j
    rw [ha.1 j (Nat.lt_of_lt_of_le hj hg.2.2) hne2, hg.1 j hj]
  · show b2.id = r.back.id ∨ st.length ≤ b2.id
    rcases ha.2.1 with e | e
    · rcases hg.2.1 with e2 | e2
      · exact Or.inl (by rw [e, e2])
      · exact Or.inr (by rw [e, e2])
    · refine Or.inr ?_
      rw [e]
      exact hg.2.2
  · show st.length ≤ st2.length
    exact Nat.le_trans hg.2.2 ha.2.2

/-- Frame part of `setAttributes`: it modifies no existing array (it only
allocates the clone); the new overflow array is fresh. -/
theorem setAttributes_frame (st : Store) (r : Rec) (attrs : GoSlice) :
    (∀ j, j < st.length → arrayOf (setAttributes st r attrs).1 j = arrayOf st j) ∧
    (setAttributes st r attrs).2.back.id = st.length ∧
    (setAttributes st r attrs).1.length = st.length + 1 := by
  have h5 := allocSlice_spec st (readSlice st
    ⟨attrs.id, attrs.off + min attributesInlineCount attrs.len,
      attrs.len - min attributesInlineCount attrs.len⟩)
  exact ⟨fun j hj => h5.2.2.2.2 j hj,
    by show (allocSlice _ _).2.id = st.length; rw [h5.2.2.1],
    h5.2.2.2.1⟩

/-- Frame part of `cloneRec`: it modifies no existing array; the clone's
overflow array is fresh and its record fields are those of the original. -/
theorem cloneRec_frame (st : Store) (r : Rec) :
    (∀ j, j < st.length → arrayOf (cloneRec st r).1 j = arrayOf st j) ∧
    (cloneRec st r).2.back.id = st.length ∧
    (cloneRec st r).1.length = st.length + 1 ∧
    (cloneRec st r).2.front = r.front ∧ (cloneRec st r).2.nFront = r.nFront := by
  have h5 := allocSlice_spec st (readSlice st r.back)
  exact ⟨fun j hj => h5.2.2.2.2 j hj,
    by show (allocSlice _ _).2.id = st.length; rw [h5.2.2.1],
    h5.2.2.2.1, rfl, rfl⟩

/-- The "unused inline slots are zeroed" property of a record. -/
def zeroSlots (r : Rec) : Prop :=
  r.front.drop r.nFront = List.replicate (attributesInlineCount - r.nFront) zeroKV

/-- The structural invariant the operations maintain: the record is valid
and the inline slots fill before the overflow (nFront is the total count
capped at the inline capacity). -/
def recInv (p : Store × Rec) : Prop :=
  validRec p.1 p.2 = true ∧
  p.2.nFront = min (attributesLen p.2) attributesInlineCount

/-- Full specification of one `AddAttributes` call from an invariant
state: the invariant is preserved, the length grows by the batch size, the
walk extends by the batch, and zeroed spare slots stay zeroed. -/
theorem addAttributes_step (st : Store) (r : Rec) (attrs : List KeyValue)
    (hv : validRec st r = true)
    (hf : r.nFront = min (attributesLen r) attributesInlineCount) :
    validRec (addAttributes st r attrs).1 (addAttributes st r attrs).2 = true ∧
    (addAttributes st r attrs).2.nFront
      = min (attributesLen (addAttributes st r attrs).2) attributesInlineCount ∧
    attributesLen (addAttributes st r attrs).2 = attributesLen r + attrs.length ∧
    walkAttributes (addAttributes st r attrs).1 (addAttributes st r attrs).2
      = walkAttributes st r ++ attrs ∧
    (zeroSlots r → zeroSlots (addAttributes st r attrs).2) := by
  rcases (validRec_iff st r).mp hv with ⟨hfl, hnf, hvb⟩
  simp only [addAttributes]
  set k := min (attributesInlineCount - r.nFront) attrs.length with hk
  have hkle : k ≤ attributesInlineCount - r.nFront := by omega
  have hka : k ≤ attrs.length := by omega
  have htk : (attrs.take k).length = k := by
    rw [List.length_take]
    omega
  have hsg := slicesGrow_spec st r.back (attrs.drop k).length hvb
  have hap := goAppend_spec (slicesGrow st r.back (attrs.drop k).length).1
    (slicesGrow st r.back (attrs.drop k).length).2 (attrs.drop k) hsg.1
  have hblen : (goAppend (slicesGrow st r.back (attrs.drop k).length).1
      (slicesGrow st r.back (attrs.drop k).length).2 (attrs.drop k)).2.len
      = r.back.len + (attrs.length - k) := by
    rw [hap.2.2.1, hsg.2.2.1, List.length_drop]
  have hlen : attributesLen ⟨fillFront r.front r.nFront (attrs.take k), r.nFront + k,
      (goAppend (slicesGrow st r.back (attrs.drop k).length).1
        (slicesGrow st r.back (attrs.drop k).length).2 (attrs.drop k)).2⟩
      = attributesLen r + attrs.length := by
    unfold attributesLen at hf ⊢
    simp only
    rw [hblen]
    omega
  have hwalk : walkAttributes (goAppend (slicesGrow st r.back (attrs.drop k).length).1
        (slicesGrow st r.back (attrs.drop k).length).2 (attrs.drop k)).1
      ⟨fillFront r.front r.nFront (attrs.take k), r.nFront + k,
        (goAppend (slicesGrow st r.back (attrs.drop k).length).1
          (slicesGrow st r.back (attrs.drop k).length).2 (attrs.drop k)).2⟩
      = (r.front.take r.nFront ++ attrs.take k) ++
        (readSlice st r.back ++ attrs.drop k) := by
    unfold walkAttributes
    simp only
    have h1 := fillFront_take r.front (attrs.take k) r.nFront (by omega)
    rw [htk] at h1
    rw [h1, hap.2.1, hsg.2.1]
  refine ⟨?_, ?_, hlen, ?_, ?_⟩
  · refine (validRec_iff _ _).mpr ⟨?_, by simp only; omega, hap.1⟩
    simp only
    rw [fillFront_length r.front (attrs.take k) r.nFront (by omega), hfl]
  · rw [hlen]
    unfold attributesLen at hf ⊢
    omega
  · rw [hwalk]
    by_cases hb : r.back.len = 0
    · have hre : readSlice st r.back = [] := by
        have := readSlice_length st r.back hvb
        rw [hb] at this
        exact List.eq_nil_of_length_eq_zero this
      rw [hre]
      unfold walkAttributes
      rw [hre]
      rw [List.nil_append, List.append_nil, List.append_assoc, List.take_append_drop]
    · have hnf5 : r.nFront = attributesInlineCount := by
        unfold attributesLen at hf
        omega
      have hk0 : k = 0 := by omega
      rw [hk0]
      unfold walkAttributes
      simp only [List.take_zero, List.drop_zero, List.append_nil]
      rw [List.append_assoc]
  · intro hz
    unfold zeroSlots at hz ⊢
    simp only
    have hd := fillFront_drop r.front (attrs.take k) r.nFront (by omega)
    rw [htk] at hd
    rw [hd, ← List.drop_drop, hz, List.drop_replicate]
    have e : attributesInlineCount - r.nFront - k
        = attributesInlineCount - (r.nFront + k) := by omega
    rw [e]

/-- Full specification of one `SetAttributes` call on a valid record with
a valid argument slice: the result is valid, its walk is exactly the
argument's elements, nFront is the argument length capped at the inline
capacity, and the overflow holds the remainder. -/
theorem setAttributes_spec (st : Store) (r : Rec) (attrs : GoSlice)
    (hr : validRec st r = true) (hs : validSlice st attrs = true) :
    validRec (setAttributes st r attrs).1 (setAttributes st r attrs).2 = true ∧
    walkAttributes (setAttributes st r attrs).1 (setAttributes st r attrs).2
      = readSlice st attrs ∧
    (setAttributes st r attrs).2.nFront = min attributesInlineCount attrs.len ∧
    (setAttributes st r attrs).2.back.len
      = attrs.len - min attributesInlineCount attrs.len := by
  rcases (validRec_iff st r).mp hr with ⟨hfl, hnf, -⟩
  simp only [setAttributes, slicesClone]
  set k := min attributesInlineCount attrs.len with hk
  have hvals : (readSlice st attrs).length = attrs.len := readSlice_length st attrs hs
  have hxs : ((readSlice st attrs).take k).length = k := by
    rw [List.length_take]
    omega
  have hsub : readSlice st ⟨attrs.id, attrs.off + k, attrs.len - k⟩
      = (readSlice st attrs).drop k := readSlice_advance st attrs.id attrs.off attrs.len k
  have halloc := allocSlice_spec st
    (readSlice st ⟨attrs.id, attrs.off + k, attrs.len - k⟩)
  have hb1len : (allocSlice st
      (readSlice st ⟨attrs.id, attrs.off + k, attrs.len - k⟩)).2.len
      = attrs.len - k := by
    rw [halloc.2.2.1]
    simp only
    rw [hsub, List.length_drop, hvals]
  refine ⟨?_, ?_, by first | rfl | trivial, hb1len⟩
  · refine (validRec_iff _ _).mpr ⟨?_, by simp only; omega, halloc.1⟩
    simp only
    rw [fillFront_length r.front ((readSlice st attrs).take k) 0 (by omega), hfl]
  · unfold walkAttributes
    simp only
    have h1 := fillFront_take r.front ((readSlice st attrs).take k) 0 (by omega)
    rw [hxs, Nat.zero_add, List.take_zero, List.nil_append] at h1
    rw [h1, halloc.2.1, hsub, List.take_append_drop]

/-- Full specification of `Clone` on a valid record: both the clone and
the original stay valid in the new store, both walk to the original's
attribute sequence, and the lengths agree. -/
theorem cloneRec_spec (st : Store) (r : Rec) (hr : validRec st r = true) :
    validRec (cloneRec st r).1 (cloneRec st r).2 = true ∧
    validRec (cloneRec st r).1 r = true ∧
    walkAttributes (cloneRec st r).1 (cloneRec st r).2 = walkAttributes st r ∧
    walkAttributes (cloneRec st r).1 r = walkAttributes st r ∧
    attributesLen (cloneRec st r).2 = attributesLen r := by
  rcases (validRec_iff st r).mp hr with ⟨hfl, hnf, hvb⟩
  have hid : r.back.id < st.length := ((validSlice_iff st r.back).mp hvb).1
  simp only [cloneRec, slicesClone]
  have halloc := allocSlice_spec st (readSlice st r.back)
  have harr : arrayOf (allocSlice st (readSlice st r.back)).1 r.back.id
      = arrayOf st r.back.id := halloc.2.2.2.2 r.back.id hid
  have hmono : validSlice (allocSlice st (readSlice st r.back)).1 r.back = true :=
    validSlice_mono st _ r.back hvb (by rw [halloc.2.2.2.1]; omega) harr
  have hb1len : (allocSlice st (readSlice st r.back)).2.len = r.back.len := by
    rw [halloc.2.2.1]
    simp only
    rw [readSlice_length st r.back hvb]
  refine ⟨?_, ?_, ?_, ?_, ?_⟩
  · exact (validRec_iff _ _).mpr ⟨hfl, hnf, halloc.1⟩
  · exact (validRec_iff _ _).mpr ⟨hfl, hnf, hmono⟩
  · unfold walkAttributes
    simp only
    rw [halloc.2.1]
  · unfold walkAttributes
    rw [readSlice_congr st _ r.back harr]
  · unfold attributesLen
    simp only
    rw [hb1len]

/-- One mutation preserves the structural invariant. -/
theorem runOp_inv (st : Store) (r : Rec) (op : RecOp) (h : recInv (st, r)) :
    recInv (runOp (st, r) op) := by
  rcases op with attrs | attrs
  · have hstep := addAttributes_step st r attrs h.1 h.2
    exact ⟨hstep.1, hstep.2.1⟩
  · simp only [runOp]
    have halloc := allocSlice_spec st attrs
    have hrv : validRec (allocSlice st attrs).1 r = true := by
      rcases (validRec_iff st r).mp h.1 with ⟨hfl, hnf, hvb⟩
      have hid : r.back.id < st.length := ((validSlice_iff st r.back).mp hvb).1
      exact (validRec_iff _ _).mpr ⟨hfl, hnf,
        validSlice_mono st _ r.back hvb (by rw [halloc.2.2.2.1]; omega)
          (halloc.2.2.2.2 r.back.id hid)⟩
    have hset := setAttributes_spec (allocSlice st attrs).1 r (allocSlice st attrs).2
      hrv halloc.1
    refine ⟨hset.1, ?_⟩
    have h3 := hset.2.2.1
    have h4 := hset.2.2.2
    unfold attributesLen
    omega

/-- Any mutation sequence preserves the structural invariant. -/
theorem runOps_fold_inv : ∀ (ops : List RecOp) (st : Store) (r : Rec),
    recInv (st, r) → recInv (ops.foldl runOp (st, r))
  | [], _, _, h => h
  | op :: rest, st, r, h => by
    have h2 := runOp_inv st r op h
    simp only [List.foldl_cons]
    rcases e : runOp (st, r) op with ⟨st2, r2⟩
    rw [e] at h2
    exact runOps_fold_inv rest st2 r2 h2

/-- An Add-only mutation sequence keeps the unused inline slots zeroed. -/
theorem runOps_fold_addsInv : ∀ (ops : List RecOp) (st : Store) (r : Rec),
    allAdds ops = true → recInv (st, r) → zeroSlots r →
    zeroSlots ((ops.foldl runOp (st, r)).2)
  | [], _, _, _, _, hz => hz
  | .add attrs :: rest, st, r, ha, h, hz => by
    have hstep := addAttributes_step st r attrs h.1 h.2
    simp only [List.foldl_cons, runOp]
    rcases e : addAttributes st r attrs with ⟨st2, r2⟩
    rw [e] at hstep
    have ha2 : allAdds rest = true := ha
    exact runOps_fold_addsInv rest st2 r2 ha2 ⟨hstep.1, hstep.2.1⟩ (hstep.2.2.2.2 hz)
  | .set attrs :: rest, _, _, ha, _, _ => by simp [allAdds] at ha

/-- Walk and length of an Add-only batch sequence from an invariant
state. -/
theorem runAdds_walk : ∀ (batches : List (List KeyValue)) (st : Store) (r : Rec),
    recInv (st, r) →
    walkAttributes ((batches.map RecOp.add).foldl runOp (st, r)).1
        ((batches.map RecOp.add).foldl runOp (st, r)).2
      = walkAttributes st r ++ batches.flatten ∧
    attributesLen ((batches.map RecOp.add).foldl runOp (st, r)).2
      = attributesLen r + batches.flatten.length
  | [], st, r, _ => by simp
  | attrs :: rest, st, r, h => by
    have hstep := addAttributes_step st r attrs h.1 h.2
    simp only [List.map_cons, List.foldl_cons, runOp]
    rcases e : addAttributes st r attrs with ⟨st2, r2⟩
    rw [e] at hstep
    have hrec := runAdds_walk rest st2 r2 ⟨hstep.1, hstep.2.1⟩
    constructor
    · rw [hrec.1, hstep.2.2.2.1, List.flatten_cons, List.append_assoc]
    · rw [hrec.2, hstep.2.2.1, List.flatten_cons, List.length_append]
      omega

/-! ### Claim C2 -/

/-- C2 counterexample: after `AddAttributes(a, b)` then `SetAttributes(c)`
on a fresh record, `nFront` is 1 but unused inline slot 1 still holds the
stale attribute b, not the zero KeyValue: `SetAttributes` refills the
inline slots without zeroing the now-unused ones. -/
theorem c2_invariant_counterexample :
    (runOps [RecOp.add [Log.Int "a" 1, Log.Int "b" 2],
        RecOp.set [Log.Int "c" 3]]).2.nFront = 1 ∧
    (runOps [RecOp.add [Log.Int "a" 1, Log.Int "b" 2],
        RecOp.set [Log.Int "c" 3]]).2.front.getD 1 zeroKV = Log.Int "b" 2 ∧
    Log.Int "b" 2 ≠ zeroKV := by
  refine ⟨rfl, rfl, fun h => ?_⟩
  have hk : ¬ (KeyValue.Key (Log.Int "b" 2) = KeyValue.Key zeroKV) := by decide
  exact hk (congrArg KeyValue.Key h)

/-- C2 (amended): after every sequence of AddAttributes and SetAttributes
calls starting from the zero record, the container is valid, the inline
slots fill before the overflow (`nFront = min(total, capacity)`), the
overflow length is exactly the attribute count beyond the inline capacity
— hence the overflow is non-empty whenever attributes beyond the inline
capacity are present — and, for sequences consisting of AddAttributes
calls only, every unused inline slot holds the zero KeyValue
(SetAttributes can leave stale values in unused inline slots, as the
counterexample shows). -/
theorem c2_container_invariants (ops : List RecOp) :
    validRec (runOps ops).1 (runOps ops).2 = true ∧
    (runOps ops).2.nFront = min (attributesLen (runOps ops).2) attributesInlineCount ∧
    (runOps ops).2.back.len = attributesLen (runOps ops).2 - attributesInlineCount ∧
    (attributesInlineCount < attributesLen (runOps ops).2 →
      0 < (runOps ops).2.back.len) ∧
    (allAdds ops = true →
      (runOps ops).2.front.drop (runOps ops).2.nFront
        = List.replicate (attributesInlineCount - (runOps ops).2.nFront) zeroKV) := by
  have h0 : recInv (store0, zeroRec) := ⟨rfl, rfl⟩
  have hinv : recInv (runOps ops) := runOps_fold_inv ops store0 zeroRec h0
  have hlen : attributesLen (runOps ops).2
      = (runOps ops).2.nFront + (runOps ops).2.back.len := rfl
  have h1 := hinv.1
  have h2 := hinv.2
  refine ⟨h1, h2, by omega, by omega, fun ha => ?_⟩
  exact runOps_fold_addsInv ops store0 zeroRec ha h0 rfl

/-- Witness for C2 (amended) after a single one-attribute Add. -/
theorem c2_container_invariants_witness :
    (runOps [RecOp.add [Log.Int "a" 1]]).2.front.drop
        (runOps [RecOp.add [Log.Int "a" 1]]).2.nFront
      = List.replicate
        (attributesInlineCount - (runOps [RecOp.add [Log.Int "a" 1]]).2.nFront) zeroKV :=
  (c2_container_invariants [RecOp.add [Log.Int "a" 1]]).2.2.2.2 rfl

/-! ### Claim C5 -/

/-- C5: across any sequence of AddAttributes calls on a fresh record, the
walk visits exactly the appended attributes in insertion order,
AttributesLen equals the total number appended, and the overflow holds
exactly the appended count beyond the inline capacity of 5 — so appending
exactly 5 leaves the overflow empty and a 6th puts exactly one entry
there. -/
theorem c5_add_walk_len (batches : List (List KeyValue)) :
    walkAttributes (runOps (batches.map RecOp.add)).1
        (runOps (batches.map RecOp.add)).2 = batches.flatten ∧
    attributesLen (runOps (batches.map RecOp.add)).2 = batches.flatten.length ∧
    (runOps (batches.map RecOp.add)).2.back.len
      = batches.flatten.length - attributesInlineCount := by
  have h0 : recInv (store0, zeroRec) := ⟨rfl, rfl⟩
  have hw := runAdds_walk batches store0 zeroRec h0
  have hinv : recInv (runOps (batches.map RecOp.add)) :=
    runOps_fold_inv (batches.map RecOp.add) store0 zeroRec h0
  have hlen : attributesLen (runOps (batches.map RecOp.add)).2
      = (runOps (batches.map RecOp.add)).2.nFront
        + (runOps (batches.map RecOp.add)).2.back.len := rfl
  have hn := hinv.2
  have hl2 : attributesLen (runOps (batches.map RecOp.add)).2
      = batches.flatten.length := by
    have h2 := hw.2
    rw [show attributesLen zeroRec = 0 from rfl, Nat.zero_add] at h2
    exact h2
  exact ⟨hw.1, hl2, by omega⟩

/-! ### Claim C6 -/

/-- C6: SetAttributes replaces all prior content — afterwards the walk is
exactly the argument slice's elements and AttributesLen is the argument
length, whatever the container held before — and the overflow is an
independent copy: overwriting any element of the caller's argument slice
afterwards leaves the container's walk unchanged. -/
theorem c6_set_replaces (st : Store) (r : Rec) (attrs : GoSlice)
    (hr : validRec st r = true) (hs : validSlice st attrs = true) :
    walkAttributes (setAttributes st r attrs).1 (setAttributes st r attrs).2
      = readSlice st attrs ∧
    attributesLen (setAttributes st r attrs).2 = attrs.len ∧
    ∀ j kv, walkAttributes (writeElem (setAttributes st r attrs).1 attrs.id j kv)
        (setAttributes st r attrs).2
      = walkAttributes (setAttributes st r attrs).1 (setAttributes st r attrs).2 := by
  have hset := setAttributes_spec st r attrs hr hs
  refine ⟨hset.2.1, ?_, ?_⟩
  · have h3 := hset.2.2.1
    have h4 := hset.2.2.2
    unfold attributesLen
    omega
  · intro j kv
    have hframe := setAttributes_frame st r attrs
    have hid : attrs.id < st.length := ((validSlice_iff st attrs).mp hs).1
    have hne : (setAttributes st r attrs).2.back.id ≠ attrs.id := by
      rw [hframe.2.1]
      omega
    unfold walkAttributes
    congr 1
    apply readSlice_congr
    unfold writeElem
    exact arrayOf_writeArr_ne _ attrs.id _ _ hne

/-- Witness for C6 on a container previously holding 8 attributes, set to
the two attributes x and y. -/
theorem c6_set_replaces_witness :
    walkAttributes
      (setAttributes
        (allocSlice (runOps [RecOp.add [Log.Int "a" 1, Log.Int "b" 2, Log.Int "c" 3,
          Log.Int "d" 4, Log.Int "e" 5, Log.Int "f" 6, Log.Int "g" 7, Log.Int "h" 8]]).1
          [Log.Int "x" 9, Log.Int "y" 10]).1
        (runOps [RecOp.add [Log.Int "a" 1, Log.Int "b" 2, Log.Int "c" 3,
          Log.Int "d" 4, Log.Int "e" 5, Log.Int "f" 6, Log.Int "g" 7, Log.Int "h" 8]]).2
        (allocSlice (runOps [RecOp.add [Log.Int "a" 1, Log.Int "b" 2, Log.Int "c" 3,
          Log.Int "d" 4, Log.Int "e" 5, Log.Int "f" 6, Log.Int "g" 7, Log.Int "h" 8]]).1
          [Log.Int "x" 9, Log.Int "y" 10]).2).1
      (setAttributes
        (allocSlice (runOps [RecOp.add [Log.Int "a" 1, Log.Int "b" 2, Log.Int "c" 3,
          Log.Int "d" 4, Log.Int "e" 5, Log.Int "f" 6, Log.Int "g" 7, Log.Int "h" 8]]).1
          [Log.Int "x" 9, Log.Int "y" 10]).1
        (runOps [RecOp.add [Log.Int "a" 1, Log.Int "b" 2, Log.Int "c" 3,
          Log.Int "d" 4, Log.Int "e" 5, Log.Int "f" 6, Log.Int "g" 7, Log.Int "h" 8]]).2
        (allocSlice (runOps [RecOp.add [Log.Int "a" 1, Log.Int "b" 2, Log.Int "c" 3,
          Log.Int "d" 4, Log.Int "e" 5, Log.Int "f" 6, Log.Int "g" 7, Log.Int "h" 8]]).1
          [Log.Int "x" 9, Log.Int "y" 10]).2).2
      = [Log.Int "x" 9, Log.Int "y" 10] ∧
    attributesLen
      (setAttributes
        (allocSlice (runOps [RecOp.add [Log.Int "a" 1, Log.Int "b" 2, Log.Int "c" 3,
          Log.Int "d" 4, Log.Int "e" 5, Log.Int "f" 6, Log.Int "g" 7, Log.Int "h" 8]]).1
          [Log.Int "x" 9, Log.Int "y" 10]).1
        (runOps [RecOp.add [Log.Int "a" 1, Log.Int "b" 2, Log.Int "c" 3,
          Log.Int "d" 4, Log.Int "e" 5, Log.Int "f" 6, Log.Int "g" 7, Log.Int "h" 8]]).2
        (allocSlice (runOps [RecOp.add [Log.Int "a" 1, Log.Int "b" 2, Log.Int "c" 3,
          Log.Int "d" 4, Log.Int "e" 5, Log.Int "f" 6, Log.Int "g" 7, Log.Int "h" 8]]).1
          [Log.Int "x" 9, Log.Int "y" 10]).2).2 = 2 := by
  have h := c6_set_replaces
    (allocSlice (runOps [RecOp.add [Log.Int "a" 1, Log.Int "b" 2, Log.Int "c" 3,
      Log.Int "d" 4, Log.Int "e" 5, Log.Int "f" 6, Log.Int "g" 7, Log.Int "h" 8]]).1
      [Log.Int "x" 9, Log.Int "y" 10]).1
    (runOps [RecOp.add [Log.Int "a" 1, Log.Int "b" 2, Log.Int "c" 3,
      Log.Int "d" 4, Log.Int "e" 5, Log.Int "f" 6, Log.Int "g" 7, Log.Int "h" 8]]).2
    (allocSlice (runOps [RecOp.add [Log.Int "a" 1, Log.Int "b" 2, Log.Int "c" 3,
      Log.Int "d" 4, Log.Int "e" 5, Log.Int "f" 6, Log.Int "g" 7, Log.Int "h" 8]]).1
      [Log.Int "x" 9, Log.Int "y" 10]).2
    rfl rfl
  exact ⟨h.1.trans rfl, h.2.1.trans rfl⟩

/-! ### Claim C9 -/

/-- The walk of a record is unchanged between stores that agree on its
overflow array. -/
theorem walk_frame (st1 st2 : Store) (x : Rec)
    (harr : arrayOf st2 x.back.id = arrayOf st1 x.back.id) :
    walkAttributes st2 x = walkAttributes st1 x := by
  unfold walkAttributes
  rw [readSlice_congr st1 st2 x.back harr]

/-- C9: Clone returns a fully independent copy: the clone walks to the
same attribute sequence with the same length, and afterwards any
AddAttributes or SetAttributes applied to the original leaves the clone's
walk unchanged, and vice versa (the untouched record's fields — hence its
AttributesLen — are unchanged by construction, so the walk equalities are
the whole observable state). -/
theorem c9_clone_independence (st : Store) (r : Rec) (h : validRec st r = true) :
    walkAttributes (cloneRec st r).1 (cloneRec st r).2 = walkAttributes st r ∧
    attributesLen (cloneRec st r).2 = attributesLen r ∧
    (∀ attrs, walkAttributes (addAttributes (cloneRec st r).1 r attrs).1 (cloneRec st r).2
      = walkAttributes (cloneRec st r).1 (cloneRec st r).2) ∧
    (∀ s, walkAttributes (setAttributes (cloneRec st r).1 r s).1 (cloneRec st r).2
      = walkAttributes (cloneRec st r).1 (cloneRec st r).2) ∧
    (∀ attrs, walkAttributes (addAttributes (cloneRec st r).1 (cloneRec st r).2 attrs).1 r
      = walkAttributes (cloneRec st r).1 r) ∧
    (∀ s, walkAttributes (setAttributes (cloneRec st r).1 (cloneRec st r).2 s).1 r
      = walkAttributes (cloneRec st r).1 r) := by
  have hc := cloneRec_spec st r h
  have hcf := cloneRec_frame st r
  have hvb : validSlice st r.back = true := ((validRec_iff st r).mp h).2.2
  have hid : r.back.id < st.length := ((validSlice_iff st r.back).mp hvb).1
  refine ⟨hc.2.2.1, hc.2.2.2.2, ?_, ?_, ?_, ?_⟩
  · intro attrs
    have haf := addAttributes_frame (cloneRec st r).1 r attrs
    refine walk_frame _ _ _ ?_
    refine haf.1 (cloneRec st r).2.back.id ?_ ?_
    · rw [hcf.2.1, hcf.2.2.1]
      omega
    · rw [hcf.2.1]
      omega
  · intro s
    have hsf := setAttributes_frame (cloneRec st r).1 r s
    refine walk_frame _ _ _ ?_
    refine hsf.1 (cloneRec st r).2.back.id ?_
    rw [hcf.2.1, hcf.2.2.1]
    omega
  · intro attrs
    have haf := addAttributes_frame (cloneRec st r).1 (cloneRec st r).2 attrs
    refine walk_frame _ _ _ ?_
    refine haf.1 r.back.id ?_ ?_
    · rw [hcf.2.2.1]
      omega
    · rw [hcf.2.1]
      omega
  · intro s
    have hsf := setAttributes_frame (cloneRec st r).1 (cloneRec st r).2 s
    refine walk_frame _ _ _ ?_
    refine hsf.1 r.back.id ?_
    rw [hcf.2.2.1]
    omega

/-- Witness for C9: cloning the zero record, then adding an attribute to
the original, leaves the clone's walk unchanged. -/
theorem c9_clone_independence_witness :
    walkAttributes (addAttributes (cloneRec store0 zeroRec).1 zeroRec
        [Log.Int "a" 1]).1 (cloneRec store0 zeroRec).2
      = walkAttributes (cloneRec store0 zeroRec).1 (cloneRec store0 zeroRec).2 :=
  (c9_clone_independence store0 zeroRec rfl).2.2.1 [Log.Int "a" 1]

end OTelLog
